import Mathlib

/-
Verification of the byte-buffer adapter in src/serialize.c of the
serializer package: a growable write buffer driven by the external
serialization engine through write callbacks, and a bounded reader
driven through read callbacks.  Machine integers are modelled as Nat
(sizes, positions) and Int (the C `int c` argument of write_byte);
byte storage is a `List Nat` whose committed entries are < 256;
uninitialized memory obtained from malloc/realloc is modelled as 0
(no claim observes uninitialized slack).
-/

namespace Serializer

/-- Error conditions surfaced by the C code via `error()` (a longjmp
that aborts the in-flight call). -/
inductive SerError where
  | allocationFailure
  | capacityExceeded
  | bufferUnderrun
  | invalidInput
deriving DecidableEq, Repr

/-- Outcome of an operation that contains the C `while` growth loop:
it can succeed, abort via `error()`, or (for a zero-capacity buffer,
which doubling never enlarges) fail to terminate. -/
inductive RunResult (α : Type) where
  | ok (a : α)
  | err (e : SerError)
  | hang
deriving DecidableEq, Repr

/-- The data buffer from serialize.c:
`typedef struct { R_xlen_t length; R_xlen_t pos; unsigned char *data; } buffer;`.
`length` is the allocated capacity in bytes, `pos` the write/read cursor,
`data` the byte storage (entries are the bytes; a well-formed buffer has
`data.length = length`). -/
structure Buffer where
  length : Nat
  pos : Nat
  data : List Nat
deriving DecidableEq, Repr

/-- Maximum value of `R_xlen_t` lengths, `R_XLEN_T_MAX` from Rinternals.h. -/
def R_XLEN_T_MAX : Nat := 4503599627370496

/-- Semantics of `realloc(data, n)` when the old block holds `d`: the first
`min (d.length) n` bytes are preserved, bytes beyond the old size are
uninitialized (modelled as 0). -/
def reallocData (d : List Nat) (n : Nat) : List Nat :=
  (d ++ List.replicate (n - d.length) 0).take n

/-- Success path of `init_buffer(nbytes)`: malloc `nbytes` bytes of
uninitialized storage (modelled as zeros), `length = nbytes`, `pos = 0`.
Allocation-failure bookkeeping is modelled separately in
`initBufferAlloc`. -/
def init_buffer (nbytes : Nat) : Buffer :=
  ⟨nbytes, 0, List.replicate nbytes 0⟩

/-- The function `expand_buffer(buf)`: doubles `buf->length`
(`factor = 2;  buf->length = (R_xlen_t)(factor * buf->length);` — exact for
all reachable sizes), raises `error()` if the new length exceeds
`R_XLEN_T_MAX`, otherwise reallocates the data block to the new length.
The realloc-failure path (which frees the data block and the buffer
struct and raises an allocation error) is modelled by
`expandBufferAlloc` just below; this is the semantics when realloc
succeeds. -/
def expand_buffer (buf : Buffer) : Except SerError Buffer :=
  let newLen := 2 * buf.length
  if R_XLEN_T_MAX < newLen then
    .error .capacityExceeded
  else
    .ok ⟨newLen, buf.pos, reallocData buf.data newLen⟩

/-- Allocation-aware model of `expand_buffer(buf)`, covering its realloc
outcome: the capacity check happens first (`if (buf->length >
R_XLEN_T_MAX) error(...)` — raised with the buffer struct and its data
block still allocated, so 2 live blocks are abandoned); then `realloc`
runs — if it fails (`reallocOk = false`), the code does
`free(buf->data); free(buf);` and raises an allocation error (0 blocks
abandoned); if it succeeds, the buffer now owns the reallocated block
(0 blocks abandoned).  Returns the call result paired with the number of
live heap blocks not owned by a returned buffer. -/
def expandBufferAlloc (reallocOk : Bool) (buf : Buffer) :
    Except SerError Buffer × Nat :=
  if R_XLEN_T_MAX < 2 * buf.length then
    (.error .capacityExceeded, 2)
  else if !reallocOk then
    (.error .allocationFailure, 0)
  else
    (.ok ⟨2 * buf.length, buf.pos, reallocData buf.data (2 * buf.length)⟩, 0)

/-- Growth loops of `write_byte` / `write_bytes`:
`while (need > buf->length) { expand_buffer(buf); }` where `need` is
`buf->pos + 1` (write_byte: `pos >= length`) respectively
`buf->pos + n` (write_bytes: `pos + length > length`).  A buffer of
capacity 0 is never enlarged by doubling, so the C loop does not
terminate there: that case is `.hang`. -/
def growLoop (need : Nat) (buf : Buffer) : RunResult Buffer :=
  if need ≤ buf.length then .ok buf
  else if buf.length = 0 then .hang
  else
    match h : expand_buffer buf with
    | .error e => .err e
    | .ok buf2 => growLoop need buf2
termination_by need - buf.length
decreasing_by
  have hlen : buf2.length = 2 * buf.length := by
    simp only [expand_buffer] at h
    split at h
    · exact absurd h (by simp)
    · cases h; rfl
  simp only [hlen]
  omega

/-- The capacity evolution of the growth loop in isolation: same control
flow as `growLoop`, tracking only the capacity. -/
def capLoop (need len : Nat) : RunResult Nat :=
  if need ≤ len then .ok len
  else if len = 0 then .hang
  else if R_XLEN_T_MAX < 2 * len then .err .capacityExceeded
  else capLoop need (2 * len)
termination_by need - len
decreasing_by omega

/-- The callback `write_byte(stream, c)`: grow while `pos >= length`, then
`buf->data[buf->pos++] = (unsigned char)c;` — the int-to-unsigned-char
conversion stores `c mod 256`. -/
def write_byte (buf : Buffer) (c : Int) : RunResult Buffer :=
  match growLoop (buf.pos + 1) buf with
  | .ok b => .ok ⟨b.length, b.pos + 1, b.data.set b.pos ((c % 256).toNat)⟩
  | .err e => .err e
  | .hang => .hang

/-- Effect of `memcpy(d + p, src, src.length)` on the list `d`. -/
def writeAt (d : List Nat) (p : Nat) (src : List Nat) : List Nat :=
  d.take p ++ src ++ d.drop (p + src.length)

/-- The callback `write_bytes(stream, src, length)`: grow while
`pos + length > buf->length`, then `memcpy(buf->data + buf->pos, src, length);
buf->pos += length;`. -/
def write_bytes (buf : Buffer) (src : List Nat) : RunResult Buffer :=
  match growLoop (buf.pos + src.length) buf with
  | .ok b => .ok ⟨b.length, b.pos + src.length, writeAt b.data b.pos src⟩
  | .err e => .err e
  | .hang => .hang

/-- The callback `read_byte(stream)`: `if (pos >= length) error(...);
return buf->data[buf->pos++];`.  Returns the byte read and the advanced
buffer. -/
def read_byte (buf : Buffer) : Except SerError (Nat × Buffer) :=
  if buf.length ≤ buf.pos then .error .bufferUnderrun
  else .ok (buf.data.getD buf.pos 0, ⟨buf.length, buf.pos + 1, buf.data⟩)

/-- The callback `read_bytes(stream, dst, length)`: `if (pos + length >
buf->length) error(...); memcpy(dst, buf->data + buf->pos, length);
buf->pos += length;`.  Returns the bytes copied to `dst` and the advanced
buffer. -/
def read_bytes (buf : Buffer) (n : Nat) : Except SerError (List Nat × Buffer) :=
  if buf.length < buf.pos + n then .error .bufferUnderrun
  else .ok ((buf.data.drop buf.pos).take n, ⟨buf.length, buf.pos + n, buf.data⟩)

/-- Committed content of a buffer: the first `pos` bytes, exactly what
`pack_` copies out (`memcpy(RAW(res_), buf->data, buf->pos)`). -/
def committed (buf : Buffer) : List Nat :=
  buf.data.take buf.pos

/-- One write call issued by the external serialization engine through
the output-stream callbacks: either `write_byte` with an int `c` or
`write_bytes` with a run of bytes. -/
inductive WriteEvent where
  | one (c : Int)
  | many (bytes : List Nat)
deriving DecidableEq, Repr

/-- Byte stream a write-call sequence denotes: `write_byte c` commits the
single byte `c mod 256`; `write_bytes` commits its run verbatim. -/
def flattenWrites : List WriteEvent → List Nat
  | [] => []
  | .one c :: evs => (c % 256).toNat :: flattenWrites evs
  | .many bs :: evs => bs ++ flattenWrites evs

/-- Driving the write callbacks over a buffer, in the order the engine
issues them (the body of `R_Serialize` as seen by this adapter). -/
def runWrites : List WriteEvent → Buffer → RunResult Buffer
  | [], buf => .ok buf
  | .one c :: evs, buf =>
    match write_byte buf c with
    | .ok b => runWrites evs b
    | .err e => .err e
    | .hang => .hang
  | .many bs :: evs, buf =>
    match write_bytes buf bs with
    | .ok b => runWrites evs b
    | .err e => .err e
    | .hang => .hang

/-- The entry point `pack_(robj)`: creates a 16384-byte buffer, lets the
engine (abstracted as its sequence of write calls) drive the write
callbacks, then copies out exactly the committed bytes
`[0, buf->pos)`. -/
def pack_ (evs : List WriteEvent) : RunResult (List Nat) :=
  match runWrites evs (init_buffer 16384) with
  | .ok buf => .ok (committed buf)
  | .err e => .err e
  | .hang => .hang

/-- Appending a run of bytes one at a time through `write_byte` (each byte
passed as the C int argument), for comparison with one bulk
`write_bytes` call. -/
def writeBytesSingly : Buffer → List Nat → RunResult Buffer
  | buf, [] => .ok buf
  | buf, b :: rest =>
    match write_byte buf (b : Int) with
    | .ok b2 => writeBytesSingly b2 rest
    | .err e => .err e
    | .hang => .hang

/-- Observable outcome of a write operation: final cursor position and
final committed byte sequence (capacity and slack are not observable
through `pack_`). -/
def resultView : RunResult Buffer → RunResult (Nat × List Nat)
  | .ok b => .ok (b.pos, committed b)
  | .err e => .err e
  | .hang => .hang

/-- A decode run of the external engine, abstracted as the sequence of
read calls it issues and how it continues on the bytes received:
`readOne` is a `read_byte` call, `readMany n` a `read_bytes` call for
`n` bytes, `done v` the reconstructed value. -/
inductive ReaderProg (V : Type) where
  | done (v : V)
  | readOne (k : Nat → ReaderProg V)
  | readMany (n : Nat) (k : List Nat → ReaderProg V)

/-- Running a decode run against the bounded reader through the
`read_byte` / `read_bytes` callbacks (the body of `R_Unserialize` as seen
by this adapter). -/
def runReaderBuf {V : Type} : ReaderProg V → Buffer → Except SerError (V × Buffer)
  | .done v, buf => .ok (v, buf)
  | .readOne k, buf =>
    match read_byte buf with
    | .error e => .error e
    | .ok (b, buf2) => runReaderBuf (k b) buf2
  | .readMany n k, buf =>
    match read_bytes buf n with
    | .error e => .error e
    | .ok (bs, buf2) => runReaderBuf (k bs) buf2

/-- Ideal semantics of a decode run: consuming bytes directly from a
list, with no buffer in between.  Used to state the engine contract
(Modelled from the spec: the engine, for decode, calls read-one/read-many
in the exact order the input was produced and reconstructs the value). -/
def runReaderList {V : Type} : ReaderProg V → List Nat → Option (V × List Nat)
  | .done v, l => some (v, l)
  | .readOne k, l =>
    match l with
    | [] => none
    | b :: r => runReaderList (k b) r
  | .readMany n k, l =>
    if n ≤ l.length then runReaderList (k (l.take n)) (l.drop n)
    else none

/-- The entry point `unpack_(vec_)`: wraps the caller-supplied bytes in a
buffer (`length = XLENGTH(vec_)`, `pos = 0`, `data` viewing the raw
bytes), lets the engine (abstracted as its decode run) drive the read
callbacks, and returns the reconstructed value. -/
def unpack_ {V : Type} (dec : ReaderProg V) (bytes : List Nat) : Except SerError V :=
  match runReaderBuf dec ⟨bytes.length, 0, bytes⟩ with
  | .ok (v, _) => .ok v
  | .error e => .error e

/-- Modelled from the spec: the CountingSink behind `calc_serialized_size`
(its C source is not under src/).  `append_byte` adds 1 to the running
total, `append_bytes` adds `n`; no byte storage exists at all. -/
def count_bytes : Nat → List WriteEvent → Nat
  | total, [] => total
  | total, .one _ :: evs => count_bytes (total + 1) evs
  | total, .many bs :: evs => count_bytes (total + bs.length) evs

/-- Modelled from the spec: `calc_serialized_size(value)` drives the
engine through the counting sink starting from total 0 and returns the
final count. -/
def calc_serialized_size (evs : List WriteEvent) : Nat :=
  count_bytes 0 evs

/-- Allocation bookkeeping of `init_buffer(nbytes)`: each successful
malloc adds one live heap block, each free removes one; `error()`
longjmps out immediately.  The C code is
`buf = malloc(...); if (buf == NULL) error(...); buf->data = malloc(...);
if (buf->data == NULL) error(...);` — note that on the second failure
path the block `buf` is not freed before `error()` is raised.  Returns
the call result together with the number of live (unreleased) blocks
not owned by a returned buffer; on the success path both blocks are
owned by the returned buffer, so the leak count is 0. -/
def initBufferAlloc (structOk dataOk : Bool) (nbytes : Nat) :
    Except SerError Buffer × Nat :=
  if !structOk then (.error .allocationFailure, 0)
  else if !dataOk then (.error .allocationFailure, 1)
  else (.ok (init_buffer nbytes), 0)

/-- The growth policy stated by the spec for a single growth step:
new capacity = `max(capacity * 2, required_minimum)`. -/
def specGrowthStep (capacity required : Nat) : Nat :=
  max (capacity * 2) required

/-! Helper lemmas about the growth loop. -/

theorem capLoop_ok {need len L2 : Nat} (h : capLoop need len = .ok L2) :
    len ≤ L2 ∧ need ≤ L2 := by
  induction len using capLoop.induct with
  | need => exact need
  | case1 x hle =>
    rw [capLoop, if_pos hle] at h
    cases h
    omega
  | case2 h0 =>
    rw [capLoop, if_neg h0] at h
    simp at h
  | case3 x hle h0 hmax =>
    rw [capLoop, if_neg hle, if_neg h0, if_pos hmax] at h
    exact (RunResult.noConfusion h)
  | case4 x hle h0 hmax ih =>
    rw [capLoop, if_neg hle, if_neg h0, if_neg hmax] at h
    have := ih h
    omega

theorem capLoop_err {need len : Nat} {e : SerError}
    (h : capLoop need len = .err e) : e = .capacityExceeded := by
  induction len using capLoop.induct with
  | need => exact need
  | case1 x hle =>
    rw [capLoop, if_pos hle] at h
    exact (RunResult.noConfusion h)
  | case2 h0 =>
    rw [capLoop, if_neg h0] at h
    simp at h
  | case3 x hle h0 hmax =>
    rw [capLoop, if_neg hle, if_neg h0, if_pos hmax] at h
    cases h
    rfl
  | case4 x hle h0 hmax ih =>
    rw [capLoop, if_neg hle, if_neg h0, if_neg hmax] at h
    exact ih h

theorem capLoop_trans {n1 n2 : Nat} (len : Nat) (h12 : n1 ≤ n2) :
    capLoop n2 len =
      match capLoop n1 len with
      | .ok L1 => capLoop n2 L1
      | .err e => .err e
      | .hang => .hang := by
  induction len using capLoop.induct with
  | need => exact n1
  | case1 x hle =>
    rw [show capLoop n1 x = .ok x by rw [capLoop, if_pos hle]]
  | case2 h0 =>
    rw [show capLoop n1 0 = RunResult.hang by rw [capLoop, if_neg h0]; rfl]
    rw [capLoop]
    have hn2 : ¬ n2 ≤ 0 := by omega
    rw [if_neg hn2]
    rfl
  | case3 x hle h0 hmax =>
    rw [show capLoop n1 x = RunResult.err SerError.capacityExceeded by
      rw [capLoop, if_neg hle, if_neg h0, if_pos hmax]]
    rw [capLoop]
    have hn2 : ¬ n2 ≤ x := by omega
    rw [if_neg hn2, if_neg h0, if_pos hmax]
  | case4 x hle h0 hmax ih =>
    rw [show capLoop n1 x = capLoop n1 (2 * x) by
      rw [capLoop, if_neg hle, if_neg h0, if_neg hmax]]
    rw [show capLoop n2 x = capLoop n2 (2 * x) by
      rw [capLoop]
      have hn2 : ¬ n2 ≤ x := by omega
      rw [if_neg hn2, if_neg h0, if_neg hmax]]
    exact ih

theorem reallocData_length {d : List Nat} {n : Nat} (h : d.length ≤ n) :
    (reallocData d n).length = n := by
  simp only [reallocData, List.length_take, List.length_append, List.length_replicate]
  omega

theorem reallocData_eq {d : List Nat} {n : Nat} (h : d.length ≤ n) :
    reallocData d n = d ++ List.replicate (n - d.length) 0 := by
  apply List.take_of_length_le
  simp only [List.length_append, List.length_replicate]
  omega

theorem reallocData_self {d : List Nat} {n : Nat} (h : d.length = n) :
    reallocData d n = d := by
  rw [reallocData_eq (Nat.le_of_eq h), h, Nat.sub_self]
  simp

theorem reallocData_comp {d : List Nat} {m n : Nat} (h1 : d.length ≤ m)
    (h2 : m ≤ n) : reallocData (reallocData d m) n = reallocData d n := by
  have h3 : (reallocData d m).length ≤ n := by
    rw [reallocData_length h1]
    omega
  rw [reallocData_eq h3, reallocData_length h1, reallocData_eq h1,
    reallocData_eq (show d.length ≤ n from le_trans h1 h2)]
  rw [List.append_assoc, ← List.replicate_add]
  have : m - d.length + (n - m) = n - d.length := by omega
  rw [this]

theorem reallocData_take {d : List Nat} {n k : Nat} (hk : k ≤ d.length)
    (hn : d.length ≤ n) : (reallocData d n).take k = d.take k := by
  rw [reallocData_eq hn, List.take_append_eq_append_take,
    Nat.sub_eq_zero_of_le hk]
  simp

theorem growLoop_eq (need : Nat) (buf : Buffer)
    (hd : buf.data.length = buf.length) :
    growLoop need buf =
      match capLoop need buf.length with
      | .ok L2 => .ok ⟨L2, buf.pos, reallocData buf.data L2⟩
      | .err e => .err e
      | .hang => .hang := by
  obtain ⟨L, p, d⟩ := buf
  simp only at hd
  induction L using capLoop.induct generalizing d with
  | need => exact need
  | case1 x hle =>
    rw [growLoop, capLoop]
    simp only [if_pos hle]
    rw [reallocData_self hd]
  | case2 h0 =>
    rw [growLoop, capLoop]
    simp only [if_neg h0]
    rfl
  | case3 x hle h0 hmax =>
    rw [growLoop, capLoop]
    simp only [if_neg hle, if_neg h0, if_pos hmax]
    have hexp : expand_buffer ⟨x, p, d⟩ = .error .capacityExceeded := by
      simp only [expand_buffer]
      rw [if_pos hmax]
    split
    · rename_i e heq
      rw [hexp] at heq
      cases heq
      rfl
    · rename_i buf2 heq
      rw [hexp] at heq
      exact (Except.noConfusion heq)
  | case4 x hle h0 hmax ih =>
    rw [growLoop, capLoop]
    simp only [if_neg hle, if_neg h0, if_neg hmax]
    have hexp : expand_buffer ⟨x, p, d⟩ =
        .ok ⟨2 * x, p, reallocData d (2 * x)⟩ := by
      simp only [expand_buffer]
      rw [if_neg hmax]
    split
    · rename_i e heq
      rw [hexp] at heq
      exact (Except.noConfusion heq)
    · rename_i buf2 heq
      rw [hexp] at heq
      cases heq
      have hd2 : (reallocData d (2 * x)).length = 2 * x :=
        reallocData_length (by omega)
      rw [ih (reallocData d (2 * x)) hd2]
      cases h2 : capLoop need (2 * x) with
      | ok L2 =>
        have hge := capLoop_ok h2
        simp only
        rw [reallocData_comp (by omega) (by omega)]
      | err e => rfl
      | hang => rfl

theorem write_byte_eq (buf : Buffer) (c : Int)
    (hd : buf.data.length = buf.length) :
    write_byte buf c =
      match capLoop (buf.pos + 1) buf.length with
      | .ok L2 => .ok ⟨L2, buf.pos + 1,
          (reallocData buf.data L2).set buf.pos ((c % 256).toNat)⟩
      | .err e => .err e
      | .hang => .hang := by
  rw [write_byte, growLoop_eq _ _ hd]
  cases capLoop (buf.pos + 1) buf.length <;> rfl

theorem write_bytes_eq (buf : Buffer) (src : List Nat)
    (hd : buf.data.length = buf.length) :
    write_bytes buf src =
      match capLoop (buf.pos + src.length) buf.length with
      | .ok L2 => .ok ⟨L2, buf.pos + src.length,
          writeAt (reallocData buf.data L2) buf.pos src⟩
      | .err e => .err e
      | .hang => .hang := by
  rw [write_bytes, growLoop_eq _ _ hd]
  cases capLoop (buf.pos + src.length) buf.length <;> rfl

theorem take_succ_set {D : List Nat} {p v : Nat} (hp : p < D.length) :
    (D.set p v).take (p + 1) = D.take p ++ [v] := by
  have h1 : (D.take p).length = p := by
    simp only [List.length_take]
    omega
  rw [List.set_eq_take_cons_drop v hp, List.take_append_eq_append_take,
    List.take_of_length_le (by simp only [List.length_take]; omega), h1]
  have h2 : p + 1 - p = 1 := by omega
  rw [h2]
  simp

theorem writeAt_take {D src : List Nat} {p : Nat} (hp : p ≤ D.length)
    (hn : p + src.length ≤ D.length) :
    (writeAt D p src).take (p + src.length) = D.take p ++ src := by
  have hAS : (D.take p ++ src).length = p + src.length := by
    simp only [List.length_append, List.length_take]
    omega
  rw [writeAt, List.take_append_eq_append_take, hAS,
    List.take_of_length_le (le_of_eq hAS), Nat.sub_self]
  simp

theorem writeAt_length {D src : List Nat} {p : Nat}
    (hn : p + src.length ≤ D.length) :
    (writeAt D p src).length = D.length := by
  simp only [writeAt, List.length_append, List.length_take, List.length_drop]
  omega

theorem write_byte_ok {buf : Buffer} {c : Int} {b2 : Buffer}
    (hd : buf.data.length = buf.length) (hp : buf.pos ≤ buf.length)
    (h : write_byte buf c = .ok b2) :
    b2.pos = buf.pos + 1 ∧ b2.data.length = b2.length ∧
    b2.pos ≤ b2.length ∧ buf.length ≤ b2.length ∧
    committed b2 = committed buf ++ [(c % 256).toNat] ∧
    b2.data.getD buf.pos 0 = (c % 256).toNat := by
  rw [write_byte_eq buf c hd] at h
  cases h2 : capLoop (buf.pos + 1) buf.length with
  | ok L2 =>
    rw [h2] at h
    obtain ⟨hL1, hL2⟩ := capLoop_ok h2
    cases h
    have hD : (reallocData buf.data L2).length = L2 :=
      reallocData_length (by omega)
    have hpD : buf.pos < (reallocData buf.data L2).length := by omega
    refine ⟨rfl, ?_, ?_, ?_, ?_, ?_⟩
    · show ((reallocData buf.data L2).set buf.pos ((c % 256).toNat)).length = L2
      simp only [List.length_set, hD]
    · show buf.pos + 1 ≤ L2
      omega
    · show buf.length ≤ L2
      omega
    · show ((reallocData buf.data L2).set buf.pos
          ((c % 256).toNat)).take (buf.pos + 1) =
        buf.data.take buf.pos ++ [(c % 256).toNat]
      rw [take_succ_set hpD,
        @reallocData_take buf.data L2 buf.pos (by omega) (by omega)]
    · show ((reallocData buf.data L2).set buf.pos
          ((c % 256).toNat)).getD buf.pos 0 = (c % 256).toNat
      simp only [List.getD_eq_getElem?_getD, List.getElem?_set_self hpD,
        Option.getD_some]
  | err e =>
    rw [h2] at h
    exact (RunResult.noConfusion h)
  | hang =>
    rw [h2] at h
    exact (RunResult.noConfusion h)

theorem write_bytes_ok {buf : Buffer} {src : List Nat} {b2 : Buffer}
    (hd : buf.data.length = buf.length) (hp : buf.pos ≤ buf.length)
    (h : write_bytes buf src = .ok b2) :
    b2.pos = buf.pos + src.length ∧ b2.data.length = b2.length ∧
    b2.pos ≤ b2.length ∧ buf.length ≤ b2.length ∧
    committed b2 = committed buf ++ src := by
  rw [write_bytes_eq buf src hd] at h
  cases h2 : capLoop (buf.pos + src.length) buf.length with
  | ok L2 =>
    rw [h2] at h
    obtain ⟨hL1, hL2⟩ := capLoop_ok h2
    cases h
    have hD : (reallocData buf.data L2).length = L2 :=
      reallocData_length (by omega)
    refine ⟨rfl, ?_, ?_, ?_, ?_⟩
    · show (writeAt (reallocData buf.data L2) buf.pos src).length = L2
      rw [writeAt_length (by omega), hD]
    · show buf.pos + src.length ≤ L2
      omega
    · show buf.length ≤ L2
      omega
    · show (writeAt (reallocData buf.data L2) buf.pos
          src).take (buf.pos + src.length) = buf.data.take buf.pos ++ src
      rw [writeAt_take (by omega) (by omega),
        @reallocData_take buf.data L2 buf.pos (by omega) (by omega)]
  | err e =>
    rw [h2] at h
    exact (RunResult.noConfusion h)
  | hang =>
    rw [h2] at h
    exact (RunResult.noConfusion h)

/-- Total number of bytes a write-call sequence commits. -/
def totalBytes : List WriteEvent → Nat
  | [] => 0
  | .one _ :: evs => 1 + totalBytes evs
  | .many bs :: evs => bs.length + totalBytes evs

theorem flattenWrites_length (evs : List WriteEvent) :
    (flattenWrites evs).length = totalBytes evs := by
  induction evs with
  | nil => rfl
  | cons ev evs ih =>
    cases ev with
    | one c =>
      simp [flattenWrites, totalBytes, ih]
      omega
    | many bs => simp [flattenWrites, totalBytes, ih]

theorem count_bytes_eq (t : Nat) (evs : List WriteEvent) :
    count_bytes t evs = t + totalBytes evs := by
  induction evs generalizing t with
  | nil => simp [count_bytes, totalBytes]
  | cons ev evs ih =>
    cases ev with
    | one c =>
      rw [count_bytes, ih, totalBytes]
      omega
    | many bs =>
      rw [count_bytes, ih, totalBytes]
      omega

theorem runWrites_ok {evs : List WriteEvent} {buf b2 : Buffer}
    (hd : buf.data.length = buf.length) (hp : buf.pos ≤ buf.length)
    (h : runWrites evs buf = .ok b2) :
    b2.data.length = b2.length ∧ b2.pos ≤ b2.length ∧
    b2.pos = buf.pos + totalBytes evs ∧
    committed b2 = committed buf ++ flattenWrites evs ∧
    buf.length ≤ b2.length := by
  induction evs generalizing buf with
  | nil =>
    simp only [runWrites] at h
    cases h
    refine ⟨hd, hp, by rw [totalBytes]; omega, ?_, le_refl _⟩
    rw [flattenWrites, List.append_nil]
  | cons ev evs ih =>
    cases ev with
    | one c =>
      simp only [runWrites] at h
      cases hw : write_byte buf c with
      | ok bmid =>
        rw [hw] at h
        obtain ⟨w1, w2, w3, w4, w5, w6⟩ := write_byte_ok hd hp hw
        obtain ⟨i1, i2, i3, i4, i5⟩ := ih w2 w3 h
        refine ⟨i1, i2, ?_, ?_, by omega⟩
        · rw [i3, w1, totalBytes]
          omega
        · rw [i4, w5, flattenWrites, List.append_assoc]
          rfl
      | err e =>
        rw [hw] at h
        exact (RunResult.noConfusion h)
      | hang =>
        rw [hw] at h
        exact (RunResult.noConfusion h)
    | many bs =>
      simp only [runWrites] at h
      cases hw : write_bytes buf bs with
      | ok bmid =>
        rw [hw] at h
        obtain ⟨w1, w2, w3, w4, w5⟩ := write_bytes_ok hd hp hw
        obtain ⟨i1, i2, i3, i4, i5⟩ := ih w2 w3 h
        refine ⟨i1, i2, ?_, ?_, by omega⟩
        · rw [i3, w1, totalBytes]
          omega
        · rw [i4, w5, flattenWrites, List.append_assoc]
      | err e =>
        rw [hw] at h
        exact (RunResult.noConfusion h)
      | hang =>
        rw [hw] at h
        exact (RunResult.noConfusion h)

theorem runReaderBuf_eq {V : Type} (prog : ReaderProg V) (L p : Nat)
    (d : List Nat) (hd : d.length = L) (hp : p ≤ L) :
    runReaderBuf prog ⟨L, p, d⟩ =
      match runReaderList prog (d.drop p) with
      | some (v, rest) => .ok (v, ⟨L, L - rest.length, d⟩)
      | none => .error .bufferUnderrun := by
  induction prog generalizing p with
  | done v =>
    simp only [runReaderBuf, runReaderList]
    have hrest : L - (d.drop p).length = p := by
      rw [List.length_drop, hd]
      omega
    rw [hrest]
  | readOne k ih =>
    simp only [runReaderBuf, read_byte]
    by_cases hcase : L ≤ p
    · rw [if_pos hcase]
      have hnil : d.drop p = [] := List.drop_eq_nil_of_le (by omega)
      rw [hnil]
      rfl
    · rw [if_neg hcase]
      have hlt : p < d.length := by omega
      have hcons : d.drop p = d.getD p 0 :: d.drop (p + 1) := by
        rw [List.drop_eq_getElem_cons hlt]
        simp [List.getD_eq_getElem?_getD, List.getElem?_eq_getElem hlt]
      rw [hcons]
      simp only [runReaderList]
      exact ih (d.getD p 0) (p + 1) (by omega)
  | readMany n k ih =>
    simp only [runReaderBuf, read_bytes]
    by_cases hcase : L < p + n
    · rw [if_pos hcase]
      have hgt : ¬ n ≤ (d.drop p).length := by
        rw [List.length_drop, hd]
        omega
      simp only [runReaderList, if_neg hgt]
    · rw [if_neg hcase]
      have hle : n ≤ (d.drop p).length := by
        rw [List.length_drop, hd]
        omega
      simp only [runReaderList, if_pos hle]
      rw [List.drop_drop]
      exact ih ((d.drop p).take n) (p + n) (by omega)

theorem growLoop_stop {need : Nat} {buf : Buffer} (h : need ≤ buf.length) :
    growLoop need buf = .ok buf := by
  rw [growLoop, if_pos h]

theorem growLoop_step {need : Nat} {buf : Buffer} (h1 : ¬ need ≤ buf.length)
    (h2 : ¬ buf.length = 0) (h3 : ¬ R_XLEN_T_MAX < 2 * buf.length) :
    growLoop need buf =
      growLoop need
        ⟨2 * buf.length, buf.pos, reallocData buf.data (2 * buf.length)⟩ := by
  rw [growLoop, if_neg h1, if_neg h2]
  have hexp : expand_buffer buf =
      .ok ⟨2 * buf.length, buf.pos, reallocData buf.data (2 * buf.length)⟩ := by
    simp only [expand_buffer]
    rw [if_neg h3]
  split
  · rename_i e heq
    rw [hexp] at heq
    exact (Except.noConfusion heq)
  · rename_i buf2 heq
    rw [hexp] at heq
    cases heq
    rfl

/-! Claim theorems. -/

/-- C4: the invariant `position ≤ capacity` (growable write buffer) and
`position ≤ length` (bounded reader) holds initially — for `init_buffer`
and for the reader `unpack_` constructs — and is preserved by every
successful operation: single-byte append, bulk append, buffer expansion,
single-byte read, and bulk read.  The write-op conjuncts also assume the
representation invariant `data.length = length` of a well-formed
buffer. -/
theorem claim_C4_invariant :
    (∀ n : Nat, (init_buffer n).pos ≤ (init_buffer n).length) ∧
    (∀ bytes : List Nat,
      (⟨bytes.length, 0, bytes⟩ : Buffer).pos ≤
        (⟨bytes.length, 0, bytes⟩ : Buffer).length) ∧
    (∀ (buf : Buffer) (c : Int) (b2 : Buffer),
      buf.data.length = buf.length → buf.pos ≤ buf.length →
      write_byte buf c = .ok b2 → b2.pos ≤ b2.length) ∧
    (∀ (buf : Buffer) (src : List Nat) (b2 : Buffer),
      buf.data.length = buf.length → buf.pos ≤ buf.length →
      write_bytes buf src = .ok b2 → b2.pos ≤ b2.length) ∧
    (∀ (buf b2 : Buffer), buf.pos ≤ buf.length →
      expand_buffer buf = .ok b2 → b2.pos ≤ b2.length) ∧
    (∀ (buf : Buffer) (v : Nat) (b2 : Buffer),
      read_byte buf = .ok (v, b2) → b2.pos ≤ b2.length) ∧
    (∀ (buf : Buffer) (n : Nat) (bs : List Nat) (b2 : Buffer),
      read_bytes buf n = .ok (bs, b2) → b2.pos ≤ b2.length) := by
  refine ⟨fun n => Nat.zero_le _, fun bytes => Nat.zero_le _, ?_, ?_, ?_, ?_, ?_⟩
  · intro buf c b2 hd hp hw
    exact (write_byte_ok hd hp hw).2.2.1
  · intro buf src b2 hd hp hw
    exact (write_bytes_ok hd hp hw).2.2.1
  · intro buf b2 hp hw
    simp only [expand_buffer] at hw
    split at hw
    · exact (Except.noConfusion hw)
    · cases hw
      simp only
      omega
  · intro buf v b2 hw
    rw [read_byte] at hw
    split at hw
    · exact (Except.noConfusion hw)
    · rename_i hlt
      cases hw
      simp only
      omega
  · intro buf n bs b2 hw
    rw [read_bytes] at hw
    split at hw
    · exact (Except.noConfusion hw)
    · rename_i hlt
      cases hw
      simp only
      omega

/-- Witness for C4: concrete preservation instance — a single-byte append
on the well-formed buffer ⟨4, 2, [7, 7, 7, 7]⟩ yields ⟨4, 3, [7, 7, 5, 7]⟩,
whose position is within capacity. -/
theorem claim_C4_invariant_witness :
    write_byte ⟨4, 2, [7, 7, 7, 7]⟩ 5 = .ok ⟨4, 3, [7, 7, 5, 7]⟩ ∧
    (⟨4, 3, [7, 7, 5, 7]⟩ : Buffer).pos ≤ (⟨4, 3, [7, 7, 5, 7]⟩ : Buffer).length := by
  have hw : write_byte ⟨4, 2, [7, 7, 7, 7]⟩ 5 = .ok ⟨4, 3, [7, 7, 5, 7]⟩ := by
    rw [write_byte, growLoop_stop (by simp)]
    rfl
  exact ⟨hw, claim_C4_invariant.2.2.1 ⟨4, 2, [7, 7, 7, 7]⟩ 5 ⟨4, 3, [7, 7, 5, 7]⟩
    rfl (by simp) hw⟩

/-- C5: `read_byte` fails with BufferUnderrun exactly when
`position = length` (given the reader invariant `position ≤ length`) and
otherwise returns the byte at `position` and advances by 1;
`read_bytes n` fails with BufferUnderrun exactly when
`position + n > length` — the check precedes the copy, so failure
produces no state change and no partial data in the model — and on
success copies the `n` bytes starting at `position` and advances
`position` by `n`; `n = 0` with `position ≤ length` always succeeds as a
no-op. -/
theorem claim_C5_read_errors :
    (∀ buf : Buffer, buf.pos ≤ buf.length →
      (read_byte buf = .error .bufferUnderrun ↔ buf.pos = buf.length)) ∧
    (∀ buf : Buffer, buf.pos < buf.length →
      read_byte buf =
        .ok (buf.data.getD buf.pos 0, ⟨buf.length, buf.pos + 1, buf.data⟩)) ∧
    (∀ (buf : Buffer) (n : Nat),
      (read_bytes buf n = .error .bufferUnderrun ↔ buf.length < buf.pos + n)) ∧
    (∀ (buf : Buffer) (n : Nat), buf.pos + n ≤ buf.length →
      read_bytes buf n =
        .ok ((buf.data.drop buf.pos).take n, ⟨buf.length, buf.pos + n, buf.data⟩)) ∧
    (∀ buf : Buffer, buf.pos ≤ buf.length →
      read_bytes buf 0 = .ok ([], ⟨buf.length, buf.pos, buf.data⟩)) := by
  refine ⟨?_, ?_, ?_, ?_, ?_⟩
  · intro buf hp
    rw [read_byte]
    by_cases h : buf.length ≤ buf.pos
    · rw [if_pos h]
      simp
      omega
    · rw [if_neg h]
      simp
      omega
  · intro buf hlt
    rw [read_byte, if_neg (by omega)]
  · intro buf n
    rw [read_bytes]
    by_cases h : buf.length < buf.pos + n
    · rw [if_pos h]
      simp [h]
    · rw [if_neg h]
      simp [h]
  · intro buf n hle
    rw [read_bytes, if_neg (by omega)]
  · intro buf hp
    rw [read_bytes, if_neg (by omega)]
    simp

/-- Witness for C5: a reader of length 2 positioned at 0 — bulk-reading
3 bytes fails with BufferUnderrun, reading 1 byte succeeds, reading 0
bytes is a no-op. -/
theorem claim_C5_read_errors_witness :
    read_bytes ⟨2, 0, [10, 20]⟩ 3 = .error .bufferUnderrun ∧
    read_byte ⟨2, 0, [10, 20]⟩ = .ok (10, ⟨2, 1, [10, 20]⟩) ∧
    read_bytes ⟨2, 0, [10, 20]⟩ 0 = .ok ([], ⟨2, 0, [10, 20]⟩) := by
  refine ⟨?_, ?_, ?_⟩
  · exact (claim_C5_read_errors.2.2.1 ⟨2, 0, [10, 20]⟩ 3).2 (by decide)
  · exact claim_C5_read_errors.2.1 ⟨2, 0, [10, 20]⟩ (by decide)
  · exact claim_C5_read_errors.2.2.2.2 ⟨2, 0, [10, 20]⟩ (by decide)

/-- C6: after any sequence of successful appends driven over a freshly
created buffer, `position` equals the total number of bytes appended;
and no operation (append, expansion, read) ever decreases `position` —
only creating a new buffer resets it. -/
theorem claim_C6_position :
    (∀ (nbytes : Nat) (evs : List WriteEvent) (b2 : Buffer),
      runWrites evs (init_buffer nbytes) = .ok b2 →
      b2.pos = totalBytes evs) ∧
    (∀ (buf : Buffer) (c : Int) (b2 : Buffer),
      buf.data.length = buf.length → buf.pos ≤ buf.length →
      write_byte buf c = .ok b2 → buf.pos ≤ b2.pos) ∧
    (∀ (buf : Buffer) (src : List Nat) (b2 : Buffer),
      buf.data.length = buf.length → buf.pos ≤ buf.length →
      write_bytes buf src = .ok b2 → buf.pos ≤ b2.pos) ∧
    (∀ (buf b2 : Buffer), expand_buffer buf = .ok b2 → buf.pos ≤ b2.pos) ∧
    (∀ (buf : Buffer) (v : Nat) (b2 : Buffer),
      read_byte buf = .ok (v, b2) → buf.pos ≤ b2.pos) ∧
    (∀ (buf : Buffer) (n : Nat) (bs : List Nat) (b2 : Buffer),
      read_bytes buf n = .ok (bs, b2) → buf.pos ≤ b2.pos) := by
  refine ⟨?_, ?_, ?_, ?_, ?_, ?_⟩
  · intro nbytes evs b2 hr
    obtain ⟨-, -, h3, -, -⟩ :=
      runWrites_ok (by simp [init_buffer]) (by simp [init_buffer]) hr
    rw [h3]
    simp [init_buffer]
  · intro buf c b2 hd hp hw
    have h1 := (write_byte_ok hd hp hw).1
    omega
  · intro buf src b2 hd hp hw
    have h1 := (write_bytes_ok hd hp hw).1
    omega
  · intro buf b2 hw
    simp only [expand_buffer] at hw
    split at hw
    · exact (Except.noConfusion hw)
    · cases hw
      exact le_refl _
  · intro buf v b2 hw
    rw [read_byte] at hw
    split at hw
    · exact (Except.noConfusion hw)
    · cases hw
      simp only
      omega
  · intro buf n bs b2 hw
    rw [read_bytes] at hw
    split at hw
    · exact (Except.noConfusion hw)
    · cases hw
      simp only
      omega

/-- Witness for C6: two appends (one byte, then a three-byte run) on a
fresh 8-byte buffer leave the position at 4, the total bytes appended. -/
theorem claim_C6_position_witness :
    runWrites [WriteEvent.one 1, WriteEvent.many [2, 3, 4]] (init_buffer 8) =
      .ok ⟨8, 4, [1, 2, 3, 4, 0, 0, 0, 0]⟩ ∧
    (⟨8, 4, [1, 2, 3, 4, 0, 0, 0, 0]⟩ : Buffer).pos =
      totalBytes [WriteEvent.one 1, WriteEvent.many [2, 3, 4]] := by
  have hw1 : write_byte (init_buffer 8) 1 = .ok ⟨8, 1, [1, 0, 0, 0, 0, 0, 0, 0]⟩ := by
    rw [write_byte, growLoop_stop (by simp [init_buffer])]
    rfl
  have hw2 : write_bytes ⟨8, 1, [1, 0, 0, 0, 0, 0, 0, 0]⟩ [2, 3, 4] =
      .ok ⟨8, 4, [1, 2, 3, 4, 0, 0, 0, 0]⟩ := by
    rw [write_bytes, growLoop_stop (by simp)]
    rfl
  have hr : runWrites [WriteEvent.one 1, WriteEvent.many [2, 3, 4]] (init_buffer 8) =
      .ok ⟨8, 4, [1, 2, 3, 4, 0, 0, 0, 0]⟩ := by
    simp only [runWrites]
    rw [hw1]
    simp only [runWrites]
    rw [hw2]
  exact ⟨hr, claim_C6_position.1 8 [WriteEvent.one 1, WriteEvent.many [2, 3, 4]]
    ⟨8, 4, [1, 2, 3, 4, 0, 0, 0, 0]⟩ hr⟩

/-- C7: every append — including one that forces growth steps — and
every buffer expansion leaves the previously committed bytes
`[0, old position)` unchanged: reallocation preserves committed content
and never truncates it. -/
theorem claim_C7_committed_preserved :
    (∀ (buf : Buffer) (c : Int) (b2 : Buffer),
      buf.data.length = buf.length → buf.pos ≤ buf.length →
      write_byte buf c = .ok b2 →
      b2.data.take buf.pos = buf.data.take buf.pos) ∧
    (∀ (buf : Buffer) (src : List Nat) (b2 : Buffer),
      buf.data.length = buf.length → buf.pos ≤ buf.length →
      write_bytes buf src = .ok b2 →
      b2.data.take buf.pos = buf.data.take buf.pos) ∧
    (∀ (buf b2 : Buffer),
      buf.data.length = buf.length → buf.pos ≤ buf.length →
      expand_buffer buf = .ok b2 →
      b2.data.take buf.pos = buf.data.take buf.pos) := by
  have key : ∀ (buf b2 : Buffer) (tail : List Nat),
      buf.data.length = buf.length → buf.pos ≤ buf.length →
      buf.pos ≤ b2.pos → committed b2 = committed buf ++ tail →
      b2.data.take buf.pos = buf.data.take buf.pos := by
    intro buf b2 tail hd hp hle hc
    have h1 : b2.data.take buf.pos = (b2.data.take b2.pos).take buf.pos := by
      rw [List.take_take]
      congr 1
      omega
    rw [h1]
    have h2 : (committed buf).length = buf.pos := by
      simp only [committed, List.length_take]
      omega
    calc (committed b2).take buf.pos
        = (committed buf ++ tail).take buf.pos := by rw [hc]
      _ = (committed buf).take buf.pos := by
          rw [List.take_append_of_le_length (by omega)]
      _ = committed buf := List.take_of_length_le (by omega)
  refine ⟨?_, ?_, ?_⟩
  · intro buf c b2 hd hp hw
    obtain ⟨w1, -, -, -, w5, -⟩ := write_byte_ok hd hp hw
    exact key buf b2 _ hd hp (by omega) w5
  · intro buf src b2 hd hp hw
    obtain ⟨w1, -, -, -, w5⟩ := write_bytes_ok hd hp hw
    exact key buf b2 _ hd hp (by omega) w5
  · intro buf b2 hd hp hw
    simp only [expand_buffer] at hw
    split at hw
    · exact (Except.noConfusion hw)
    · cases hw
      exact @reallocData_take buf.data (2 * buf.length) buf.pos (by omega) (by omega)

/-- Witness for C7: a bulk append of five bytes onto ⟨4, 2, [8, 9, 0, 0]⟩
forces growth from capacity 4 to 8, and the two committed bytes [8, 9]
are preserved. -/
theorem claim_C7_committed_preserved_witness :
    write_bytes ⟨4, 2, [8, 9, 0, 0]⟩ [1, 2, 3, 4, 5] =
      .ok ⟨8, 7, [8, 9, 1, 2, 3, 4, 5, 0]⟩ ∧
    ([8, 9, 1, 2, 3, 4, 5, 0] : List Nat).take 2 = ([8, 9, 0, 0] : List Nat).take 2 := by
  have hw : write_bytes ⟨4, 2, [8, 9, 0, 0]⟩ [1, 2, 3, 4, 5] =
      .ok ⟨8, 7, [8, 9, 1, 2, 3, 4, 5, 0]⟩ := by
    rw [write_bytes, growLoop_step (by simp) (by simp) (by simp [R_XLEN_T_MAX]),
      growLoop_stop (by simp [reallocData])]
    rfl
  exact ⟨hw, claim_C7_committed_preserved.2.1 ⟨4, 2, [8, 9, 0, 0]⟩
    [1, 2, 3, 4, 5] ⟨8, 7, [8, 9, 1, 2, 3, 4, 5, 0]⟩ rfl (by simp) hw⟩

/-- C10: the single-byte write callback commits only the low 8 bits of
its int argument (the byte stored is `c mod 256`); the single-byte read
callback always returns a value in `[0, 255]` (over byte-valued
storage); and writing int `c` then reading back the byte at that offset
yields `c mod 256`. -/
theorem claim_C10_low_8_bits :
    (∀ (buf : Buffer) (c : Int) (b2 : Buffer),
      buf.data.length = buf.length → buf.pos ≤ buf.length →
      write_byte buf c = .ok b2 →
      b2.data.getD buf.pos 0 = (c % 256).toNat ∧
      read_byte ⟨b2.pos, buf.pos, b2.data⟩ =
        .ok ((c % 256).toNat, ⟨b2.pos, buf.pos + 1, b2.data⟩)) ∧
    (∀ c : Int, (c % 256).toNat < 256) ∧
    (∀ (buf : Buffer) (v : Nat) (b2 : Buffer),
      (∀ b ∈ buf.data, b < 256) → read_byte buf = .ok (v, b2) → v < 256) := by
  refine ⟨?_, ?_, ?_⟩
  · intro buf c b2 hd hp hw
    obtain ⟨w1, -, -, -, -, w6⟩ := write_byte_ok hd hp hw
    refine ⟨w6, ?_⟩
    rw [read_byte, if_neg (by simp only; omega)]
    simp only [w6, w1]
  · intro c
    have h1 : 0 ≤ c % 256 := Int.emod_nonneg c (by norm_num)
    have h2 : c % 256 < 256 := Int.emod_lt_of_pos c (by norm_num)
    omega
  · intro buf v b2 hb hw
    rw [read_byte] at hw
    split at hw
    · exact (Except.noConfusion hw)
    · cases hw
      rw [List.getD_eq_getElem?_getD]
      cases hx : buf.data[buf.pos]? with
      | none => simp [hx]
      | some x =>
        have hmem : x ∈ buf.data := List.getElem?_mem hx
        simp only [hx, Option.getD_some]
        exact hb x hmem

/-- Witness for C10: writing int 300 into ⟨4, 2, [9, 9, 9, 9]⟩ stores
byte 44 = 300 mod 256, and reading that offset back returns 44. -/
theorem claim_C10_low_8_bits_witness :
    write_byte ⟨4, 2, [9, 9, 9, 9]⟩ 300 = .ok ⟨4, 3, [9, 9, 44, 9]⟩ ∧
    ([9, 9, 44, 9] : List Nat).getD 2 0 = ((300 : Int) % 256).toNat ∧
    read_byte ⟨3, 2, [9, 9, 44, 9]⟩ =
      .ok (((300 : Int) % 256).toNat, ⟨3, 3, [9, 9, 44, 9]⟩) := by
  have hw : write_byte ⟨4, 2, [9, 9, 9, 9]⟩ 300 = .ok ⟨4, 3, [9, 9, 44, 9]⟩ := by
    rw [write_byte, growLoop_stop (by simp)]
    rfl
  have h := claim_C10_low_8_bits.1 ⟨4, 2, [9, 9, 9, 9]⟩ 300 ⟨4, 3, [9, 9, 44, 9]⟩
    rfl (by simp) hw
  exact ⟨hw, h.1, h.2⟩

theorem write_bytes_view (buf : Buffer) (src : List Nat)
    (hd : buf.data.length = buf.length) (hp : buf.pos ≤ buf.length) :
    resultView (write_bytes buf src) =
      match capLoop (buf.pos + src.length) buf.length with
      | .ok L2 => .ok (buf.pos + src.length, buf.data.take buf.pos ++ src)
      | .err e => .err e
      | .hang => .hang := by
  rw [write_bytes_eq _ _ hd]
  cases hc : capLoop (buf.pos + src.length) buf.length with
  | ok L2 =>
    obtain ⟨h1, h2⟩ := capLoop_ok hc
    have hD : (reallocData buf.data L2).length = L2 :=
      reallocData_length (by omega)
    simp only [resultView, committed]
    rw [writeAt_take (by omega) (by omega),
      @reallocData_take buf.data L2 buf.pos (by omega) (by omega)]
  | err e => rfl
  | hang => rfl

/-- C3: for every buffer state (well-formed, with the positive capacity
`create` guarantees) and every run of bytes, appending the bytes one at
a time through `write_byte` yields exactly the same observable outcome —
final committed byte sequence and final position, and the same
error/hang behaviour — as appending them in one bulk `write_bytes`
call, including when the run forces multiple growth steps. -/
theorem claim_C3_single_eq_bulk (buf : Buffer) (src : List Nat)
    (hd : buf.data.length = buf.length) (hp : buf.pos ≤ buf.length)
    (hb : ∀ b ∈ src, b < 256) :
    resultView (writeBytesSingly buf src) = resultView (write_bytes buf src) := by
  induction src generalizing buf with
  | nil =>
    rw [write_bytes_view buf [] hd hp]
    have hc : capLoop (buf.pos + ([] : List Nat).length) buf.length =
        .ok buf.length := by
      rw [capLoop, if_pos (by simp only [List.length_nil]; omega)]
    rw [hc]
    simp only [writeBytesSingly, resultView, committed, List.length_nil,
      Nat.add_zero, List.append_nil]
  | cons b rest ih =>
    have hblt : b < 256 := hb b (List.mem_cons_self b rest)
    have hmod : (((b : Int)) % 256).toNat = b := by omega
    rw [write_bytes_view buf (b :: rest) hd hp]
    cases hc1 : capLoop (buf.pos + 1) buf.length with
    | err e =>
      have hts : capLoop (buf.pos + (b :: rest).length) buf.length = .err e := by
        have h := @capLoop_trans (buf.pos + 1) (buf.pos + (b :: rest).length)
          buf.length (by simp only [List.length_cons]; omega)
        rw [hc1] at h
        exact h
      have hw : write_byte buf (b : Int) = .err e := by
        rw [write_byte_eq _ _ hd, hc1]
      rw [hts]
      simp only [writeBytesSingly, hw, resultView]
    | hang =>
      have hts : capLoop (buf.pos + (b :: rest).length) buf.length = .hang := by
        have h := @capLoop_trans (buf.pos + 1) (buf.pos + (b :: rest).length)
          buf.length (by simp only [List.length_cons]; omega)
        rw [hc1] at h
        exact h
      have hw : write_byte buf (b : Int) = .hang := by
        rw [write_byte_eq _ _ hd, hc1]
      rw [hts]
      simp only [writeBytesSingly, hw, resultView]
    | ok L1 =>
      obtain ⟨hL1a, hL1b⟩ := capLoop_ok hc1
      have hw : write_byte buf (b : Int) =
          .ok ⟨L1, buf.pos + 1, (reallocData buf.data L1).set buf.pos b⟩ := by
        rw [write_byte_eq _ _ hd, hc1, hmod]
      have hts : capLoop (buf.pos + (b :: rest).length) buf.length =
          capLoop (buf.pos + (b :: rest).length) L1 := by
        have h := @capLoop_trans (buf.pos + 1) (buf.pos + (b :: rest).length)
          buf.length (by simp only [List.length_cons]; omega)
        rw [hc1] at h
        exact h
      rw [hts]
      have hD1 : (reallocData buf.data L1).length = L1 :=
        reallocData_length (by omega)
      have hd2 : ((reallocData buf.data L1).set buf.pos b).length = L1 := by
        rw [List.length_set, hD1]
      simp only [writeBytesSingly, hw]
      rw [ih ⟨L1, buf.pos + 1, (reallocData buf.data L1).set buf.pos b⟩ hd2 hL1b
        (fun x hx => hb x (List.mem_cons_of_mem b hx))]
      rw [write_bytes_view ⟨L1, buf.pos + 1, (reallocData buf.data L1).set buf.pos b⟩
        rest hd2 hL1b]
      have harg : buf.pos + 1 + rest.length = buf.pos + (b :: rest).length := by
        simp only [List.length_cons]
        omega
      simp only [harg]
      cases hc2 : capLoop (buf.pos + (b :: rest).length) L1 with
      | err e => rfl
      | hang => rfl
      | ok L2 =>
        have hfin : ((reallocData buf.data L1).set buf.pos b).take (buf.pos + 1) ++ rest
            = buf.data.take buf.pos ++ b :: rest := by
          rw [take_succ_set (by omega),
            @reallocData_take buf.data L1 buf.pos (by omega) (by omega),
            List.append_assoc]
          rfl
        rw [hfin]

/-- Witness for C3: a nine-byte run appended to an empty four-byte
buffer (forcing two growth steps, 4 → 8 → 16) gives the same observable
outcome byte-by-byte as in one bulk call. -/
theorem claim_C3_single_eq_bulk_witness :
    (∀ b ∈ ([1, 2, 3, 4, 5, 6, 7, 8, 9] : List Nat), b < 256) ∧
    resultView (writeBytesSingly ⟨4, 0, [0, 0, 0, 0]⟩ [1, 2, 3, 4, 5, 6, 7, 8, 9]) =
      resultView (write_bytes ⟨4, 0, [0, 0, 0, 0]⟩ [1, 2, 3, 4, 5, 6, 7, 8, 9]) :=
  ⟨by decide, claim_C3_single_eq_bulk ⟨4, 0, [0, 0, 0, 0]⟩
    [1, 2, 3, 4, 5, 6, 7, 8, 9] rfl (by decide) (by decide)⟩

theorem init_buffer_wf (nbytes : Nat) :
    (init_buffer nbytes).data.length = (init_buffer nbytes).length ∧
    (init_buffer nbytes).pos ≤ (init_buffer nbytes).length :=
  ⟨List.length_replicate nbytes 0, Nat.zero_le _⟩

theorem pack_single_42 : pack_ [WriteEvent.one 42] = .ok [42] := by
  have hgl : growLoop ((init_buffer 16384).pos + 1) (init_buffer 16384) =
      .ok (init_buffer 16384) :=
    growLoop_stop (show (0 : Nat) + 1 ≤ 16384 by omega)
  have hwb : write_byte (init_buffer 16384) 42 =
      .ok ⟨16384, 1, (List.replicate 16384 0).set 0 42⟩ := by
    rw [write_byte, hgl]
    rfl
  have hrw : runWrites [WriteEvent.one 42] (init_buffer 16384) =
      .ok ⟨16384, 1, (List.replicate 16384 0).set 0 42⟩ := by
    simp only [runWrites]
    rw [hwb]
  rw [pack_, hrw]
  rfl

/-- C2 (CountingSink modelled from the spec — the C source of
`calc_serialized_size` is not under src/): for every write-call sequence
the engine produces, when `pack_` succeeds the byte count returned by
the counting variant equals exactly the length of the byte sequence
`pack_` returns; the counting sink carries only its running total and no
byte storage. -/
theorem claim_C2_measure_eq_pack_length (evs : List WriteEvent)
    (bs : List Nat) (h : pack_ evs = .ok bs) :
    calc_serialized_size evs = bs.length := by
  rw [pack_] at h
  cases hr : runWrites evs (init_buffer 16384) with
  | ok bufF =>
    rw [hr] at h
    cases h
    obtain ⟨f1, f2, f3, -, -⟩ :=
      runWrites_ok (init_buffer_wf 16384).1 (init_buffer_wf 16384).2 hr
    rw [calc_serialized_size, count_bytes_eq]
    have hlen : (committed bufF).length = bufF.pos := by
      simp only [committed, List.length_take]
      omega
    rw [hlen, f3]
    rfl
  | err e =>
    rw [hr] at h
    exact (RunResult.noConfusion h)
  | hang =>
    rw [hr] at h
    exact (RunResult.noConfusion h)

/-- Witness for C2: one engine write of the single byte 42 — `pack_`
returns a one-byte sequence and the counting variant returns its
length. -/
theorem claim_C2_measure_witness :
    pack_ [WriteEvent.one 42] = .ok [42] ∧
    calc_serialized_size [WriteEvent.one 42] = ([42] : List Nat).length :=
  ⟨pack_single_42,
    claim_C2_measure_eq_pack_length [WriteEvent.one 42] [42] pack_single_42⟩

/-- C1 (engine modelled from the spec): for every value `v` the external
engine can encode — the engine abstracted as an encoder mapping `v` to
its write calls, and a decode run that on the ideal byte stream of those
calls reconstructs `v` — if `pack_` succeeds then `unpack_` of the
packed bytes reproduces `v`: the adapter transports the engine byte
stream faithfully in both directions. -/
theorem claim_C1_roundtrip {V : Type} (enc : V → List WriteEvent)
    (dec : ReaderProg V) (v : V) (bs rest : List Nat)
    (hdec : runReaderList dec (flattenWrites (enc v)) = some (v, rest))
    (hpack : pack_ (enc v) = .ok bs) :
    unpack_ dec bs = .ok v := by
  rw [pack_] at hpack
  cases hr : runWrites (enc v) (init_buffer 16384) with
  | ok bufF =>
    rw [hr] at hpack
    cases hpack
    obtain ⟨f1, f2, f3, f4, f5⟩ :=
      runWrites_ok (init_buffer_wf 16384).1 (init_buffer_wf 16384).2 hr
    have hbs : committed bufF = flattenWrites (enc v) := by
      rw [f4]
      rfl
    rw [unpack_, runReaderBuf_eq dec (committed bufF).length 0 (committed bufF)
      rfl (Nat.zero_le _)]
    rw [List.drop_zero, hbs, hdec]
  | err e =>
    rw [hr] at hpack
    exact (RunResult.noConfusion hpack)
  | hang =>
    rw [hr] at hpack
    exact (RunResult.noConfusion hpack)

/-- Witness for C1: an engine that encodes a small Nat as a single byte,
with its one-read decode run; packing 42 gives [42] and unpacking
returns 42. -/
theorem claim_C1_roundtrip_witness :
    runReaderList (ReaderProg.readOne fun x => ReaderProg.done x)
        (flattenWrites [WriteEvent.one 42]) = some (42, ([] : List Nat)) ∧
    pack_ [WriteEvent.one 42] = .ok [42] ∧
    unpack_ (ReaderProg.readOne fun x => ReaderProg.done x) [42] = .ok 42 :=
  ⟨rfl, pack_single_42,
    claim_C1_roundtrip (fun x : Nat => [WriteEvent.one (x : Int)])
      (ReaderProg.readOne fun x => ReaderProg.done x) 42 [42] [] rfl
      pack_single_42⟩

/-- C8 counterexample: the code growth step only doubles — expanding the
4-byte buffer during a 9-byte bulk append from position 0 (required
minimum 9) yields capacity 8, not `max(4 * 2, 9) = 9`, and the append
finishes with capacity 16, not 9. -/
theorem claim_C8_counterexample :
    expand_buffer ⟨4, 0, [0, 0, 0, 0]⟩ =
      .ok ⟨8, 0, [0, 0, 0, 0, 0, 0, 0, 0]⟩ ∧
    specGrowthStep 4 9 = 9 ∧
    (8 : Nat) ≠ specGrowthStep 4 9 ∧
    write_bytes ⟨4, 0, [0, 0, 0, 0]⟩ [1, 2, 3, 4, 5, 6, 7, 8, 9] =
      .ok ⟨16, 9, [1, 2, 3, 4, 5, 6, 7, 8, 9, 0, 0, 0, 0, 0, 0, 0]⟩ ∧
    (16 : Nat) ≠ specGrowthStep 4 9 := by
  refine ⟨rfl, by decide, by decide, ?_, by decide⟩
  rw [write_bytes, growLoop_step (by decide) (by decide) (by decide),
    growLoop_step (by decide) (by decide) (by decide),
    growLoop_stop (by decide)]
  rfl

/-- C8 amended: when an append exceeds the current capacity, each growth
step sets the new capacity to `2 * capacity` — independent of the
required minimum — repeating until the capacity covers the required
minimum `position + n`; a step whose doubled capacity would exceed
`R_XLEN_T_MAX` fails with the capacity error before any reallocation is
attempted (also in the allocation-aware model, under either realloc
outcome), aborting the whole pack operation, while a reallocation
failure during a step raises the allocation error instead. -/
theorem claim_C8_amended :
    (∀ (buf b2 : Buffer), expand_buffer buf = .ok b2 →
      b2.length = 2 * buf.length) ∧
    (∀ buf : Buffer,
      expand_buffer buf = .error .capacityExceeded ↔
        R_XLEN_T_MAX < 2 * buf.length) ∧
    (∀ (reallocOk : Bool) (buf : Buffer),
      (expandBufferAlloc reallocOk buf).1 = .error .capacityExceeded ↔
        R_XLEN_T_MAX < 2 * buf.length) ∧
    (∀ buf : Buffer, ¬ R_XLEN_T_MAX < 2 * buf.length →
      (expandBufferAlloc false buf).1 = .error .allocationFailure) ∧
    (∀ buf : Buffer, (expandBufferAlloc true buf).1 = expand_buffer buf) ∧
    (∀ (buf : Buffer) (src : List Nat) (b2 : Buffer),
      buf.data.length = buf.length → write_bytes buf src = .ok b2 →
      buf.pos + src.length ≤ b2.length) := by
  refine ⟨?_, ?_, ?_, ?_, ?_, ?_⟩
  · intro buf b2 hw
    simp only [expand_buffer] at hw
    split at hw
    · exact (Except.noConfusion hw)
    · cases hw
      rfl
  · intro buf
    by_cases hmax : R_XLEN_T_MAX < 2 * buf.length
    · simp only [expand_buffer, if_pos hmax]
      simp [hmax]
    · simp only [expand_buffer, if_neg hmax]
      simp [hmax]
  · intro reallocOk buf
    by_cases hmax : R_XLEN_T_MAX < 2 * buf.length
    · simp only [expandBufferAlloc, if_pos hmax]
      simp [hmax]
    · simp only [expandBufferAlloc, if_neg hmax]
      cases reallocOk with
      | false => simp [hmax]
      | true => simp [hmax]
  · intro buf hmax
    simp only [expandBufferAlloc, if_neg hmax]
    rfl
  · intro buf
    by_cases hmax : R_XLEN_T_MAX < 2 * buf.length
    · simp only [expandBufferAlloc, expand_buffer, if_pos hmax]
    · simp only [expandBufferAlloc, expand_buffer, if_neg hmax]
      rfl
  · intro buf src b2 hd hw
    rw [write_bytes_eq _ _ hd] at hw
    cases hc : capLoop (buf.pos + src.length) buf.length with
    | ok L2 =>
      rw [hc] at hw
      obtain ⟨h1, h2⟩ := capLoop_ok hc
      cases hw
      show buf.pos + src.length ≤ L2
      omega
    | err e =>
      rw [hc] at hw
      exact (RunResult.noConfusion hw)
    | hang =>
      rw [hc] at hw
      exact (RunResult.noConfusion hw)

/-- Witness for C8 amended: a successful expansion of a 4-byte buffer
doubles its capacity to 8. -/
theorem claim_C8_amended_witness :
    expand_buffer ⟨4, 2, [5, 6, 0, 0]⟩ =
      .ok ⟨8, 2, [5, 6, 0, 0, 0, 0, 0, 0]⟩ ∧
    (⟨8, 2, [5, 6, 0, 0, 0, 0, 0, 0]⟩ : Buffer).length =
      2 * (⟨4, 2, [5, 6, 0, 0]⟩ : Buffer).length :=
  ⟨rfl, claim_C8_amended.1 ⟨4, 2, [5, 6, 0, 0]⟩
    ⟨8, 2, [5, 6, 0, 0, 0, 0, 0, 0]⟩ rfl⟩

/-- C9 (code bug): the claim requires every failure path of pack/unpack
to release all storage acquired so far, but on the `init_buffer` failure
path where the data malloc fails, `error()` is raised without freeing
the already-allocated buffer struct — one live heap block is leaked
instead of zero. -/
theorem claim_C9_init_buffer_leak :
    initBufferAlloc true false 16384 =
      (.error .allocationFailure, 1) ∧ (1 : Nat) ≠ 0 :=
  ⟨rfl, by decide⟩

end Serializer
